import Mathlib

/-!
Verification of the reverse-mode AD transform engine (`EnzymeLogic.cpp`).

The development shallowly embeds the analyses and transformation routines of
`src/enzyme/Enzyme/EnzymeLogic.cpp` as executable Lean definitions and proves
the specified properties about them.  Each embedded definition cites the
source lines it is translated from.  IR-level facts supplied by external
oracles (alias analysis, dominator tree, activity analysis, type analysis)
are modelled as explicit inputs, since the source consumes them as opaque
queried interfaces.
-/

/- ====================================================================== -/
/- DEFINITIONS                                                            -/
/- ====================================================================== -/

namespace StdMap

/-- Model of `std::map` as an association list ordered by insertion; `find`
returns the mapped value of the first matching key (keys are unique in every
map built by the operations below). -/
def find {K V : Type _} [DecidableEq K] : List (K × V) → K → Option V
  | [], _ => none
  | (k0, v0) :: rest, k => if k0 = k then some v0 else find rest k

/-- Model of `std::map::emplace`: if the key is present the map is unchanged
and an iterator to the existing entry is returned (modelled by its mapped
value); otherwise the new entry is inserted and returned. -/
def emplace {K V : Type _} [DecidableEq K] (m : List (K × V)) (k : K) (v : V) :
    List (K × V) × V :=
  match find m k with
  | some v0 => (m, v0)
  | none => (m ++ [(k, v)], v)

/-- Embedding of the local helper `insert_or_assign`
(EnzymeLogic.cpp:1394-1416).  In the source the `if (found == map.end()) {}`
statement has an empty body, so the following
`return map.emplace(key, val).first;` executes unconditionally and the
reassignment code below it is unreachable; the observable behaviour of the
function body is therefore exactly an `emplace` (the computed `found`
iterator is unused). -/
def insert_or_assign {K V : Type _} [DecidableEq K] (m : List (K × V)) (k : K)
    (v : V) : List (K × V) × V :=
  emplace m k v

/-- Targeted field mutation through a found iterator
(`map.find(key)->second.fn = val;`): applies `f` to the entry at `k`,
leaving all other entries unchanged. -/
def updateAt {K V : Type _} [DecidableEq K] (m : List (K × V)) (k : K)
    (f : V → V) : List (K × V) :=
  m.map (fun p => if p.1 = k then (p.1, f p.2) else p)

/-- Model of `std::map::operator[]` followed by assignment
(`map[key] = val;`): overwrites the entry if present, inserts otherwise. -/
def mapAssign {K V : Type _} [DecidableEq K] (m : List (K × V)) (k : K) (v : V) :
    List (K × V) :=
  match find m k with
  | some _ => m.map (fun p => if p.1 = k then (k, v) else p)
  | none => m ++ [(k, v)]

end StdMap

/-- Embedding of `enum class DerivativeMode` (EnzymeLogic.cpp:552-556). -/
inductive DerivativeMode
  | Forward
  | Reverse
  | Both
deriving DecidableEq

namespace UnreachCFG

/-- Terminator kinds relevant to `getGuaranteedUnreachable`: a return
instruction, an unreachable instruction, or any other terminator. -/
inductive TermKind
  | ret
  | unreach
  | other
deriving DecidableEq

/-- A control-flow graph over `n` basic blocks: a terminator kind per block
and successor/predecessor lists, as queried by `successors`/`predecessors`
in the source. -/
structure CFG (n : Nat) where
  term : Fin n → TermKind
  succs : Fin n → List (Fin n)
  preds : Fin n → List (Fin n)

theorem card_sdiff_insert_lt {n : Nat} {known : Finset (Fin n)} {next : Fin n}
    (h : next ∉ known) :
    (Finset.univ \ insert next known).card < (Finset.univ \ known).card := by
  apply Finset.card_lt_card
  constructor
  · exact Finset.sdiff_subset_sdiff (le_refl _) (Finset.subset_insert _ _)
  · intro hsub
    have h1 : next ∈ Finset.univ \ known := by simp [h]
    have h2 := hsub h1
    simp at h2

/-- Embedding of the worklist loop of `getGuaranteedUnreachable`
(EnzymeLogic.cpp:1359-1389): pop the front of the deque; skip blocks already
known unreachable and blocks terminated by a return; insert blocks
terminated by `unreachable` and blocks all of whose successors are already
known, re-enqueuing their predecessors at the back. -/
def guLoop {n : Nat} (G : CFG n) (known : Finset (Fin n)) :
    List (Fin n) → Finset (Fin n)
  | [] => known
  | next :: rest =>
    if next ∈ known then guLoop G known rest
    else if G.term next = .ret then guLoop G known rest
    else if G.term next = .unreach then
      guLoop G (insert next known) (rest ++ G.preds next)
    else if (G.succs next).all (fun s => s ∈ known) then
      guLoop G (insert next known) (rest ++ G.preds next)
    else guLoop G known rest
termination_by todo => ((Finset.univ \ known).card, todo.length)
decreasing_by
  all_goals simp_wf
  · apply Prod.Lex.right; omega
  · apply Prod.Lex.right; omega
  · apply Prod.Lex.left; exact card_sdiff_insert_lt (by assumption)
  · apply Prod.Lex.left; exact card_sdiff_insert_lt (by assumption)
  · apply Prod.Lex.right; omega

/-- Embedding of `getGuaranteedUnreachable` (EnzymeLogic.cpp:1354-1392):
the worklist is seeded with every block of the function in order. -/
def getGuaranteedUnreachable {n : Nat} (G : CFG n) : Finset (Fin n) :=
  guLoop G ∅ (List.finRange n)

/-- The claimed characterisation, written from the specification: `U` is the
least set seeded with the blocks whose terminator is `unreachable` and closed
under adding any non-return block all of whose successors are already in
`U`. -/
inductive GuaranteedU {n : Nat} (G : CFG n) : Fin n → Prop
  | seed (b : Fin n) : G.term b = .unreach → GuaranteedU G b
  | close (b : Fin n) : G.term b ≠ .ret → (∀ s ∈ G.succs b, GuaranteedU G s) →
      GuaranteedU G b

/-- A block is ready to be added to the set `known` of the worklist. -/
def trigger {n : Nat} (G : CFG n) (known : Finset (Fin n)) (b : Fin n) : Prop :=
  G.term b = .unreach ∨ (G.term b ≠ .ret ∧ ∀ s ∈ G.succs b, s ∈ known)

/-- Example CFG for the C5 witness: block 0 branches to blocks 1 and 2,
block 1 is unreachable, block 2 returns, block 3 branches only to block 1. -/
def exCFG : CFG 4 where
  term := fun b => if b = 1 then .unreach else if b = 2 then .ret else .other
  succs := fun b => if b = 0 then [1, 2] else if b = 3 then [1] else []
  preds := fun b => if b = 1 then [0, 3] else if b = 2 then [0] else []

end UnreachCFG


namespace AugCall

/-- Per-argument facts queried by `shouldAugmentCall`: activity of the passed
value, whether its type is floating point, and the callee's parameter
attributes. -/
structure CallArg where
  constVal : Bool
  fpTy : Bool
  readOnly : Bool
  readNone : Bool
deriving DecidableEq

/-- Facts of a call site queried by `shouldAugmentCall`
(EnzymeLogic.cpp:2055-2093): whether the callee is statically known, is
empty, carries the `ReadNone` function attribute, whether the result type is
floating point, the activity of the result, the arguments, and whether the
enclosing block is terminated by `unreachable`. -/
structure CallOp where
  calleeKnown : Bool
  calleeEmpty : Bool
  calleeReadNone : Bool
  retFP : Bool
  retConstVal : Bool
  args : List CallArg
  blockUnreachable : Bool
deriving DecidableEq

/-- One iteration of the argument loop of `shouldAugmentCall`
(EnzymeLogic.cpp:2071-2084), threading the `modifyPrimal` accumulator. -/
def argStep (c : CallOp) (mp : Bool) (a : CallArg) : Bool :=
  if a.constVal && c.calleeKnown && !c.calleeEmpty then mp
  else if !a.fpTy then
    if c.calleeKnown && !(a.readOnly || a.readNone) then true else mp
  else mp

/-- Embedding of `shouldAugmentCall` (EnzymeLogic.cpp:2055-2093). -/
def shouldAugmentCall (c : CallOp) : Bool :=
  let mp1 := !c.calleeKnown || !c.calleeReadNone
  let mp2 := mp1 || (!c.retFP && !c.retConstVal)
  let mp3 := if !c.calleeKnown || c.calleeEmpty then true else mp2
  let mp4 := c.args.foldl (argStep c) mp3
  if c.blockUnreachable then false else mp4

/-- Spec-side condition: the callee may read memory, i.e. it does not carry
the `readnone` attribute (an unknown callee carries no attribute). -/
def specReadsMem (c : CallOp) : Bool :=
  !(c.calleeKnown && c.calleeReadNone)

/-- Spec-side condition: the result is a non-float, non-constant value. -/
def specRetNeed (c : CallOp) : Bool :=
  !c.retFP && !c.retConstVal

/-- Spec-side condition: the callee is unknown or empty. -/
def specUnknown (c : CallOp) : Bool :=
  !c.calleeKnown || c.calleeEmpty

/-- Spec-side condition: a non-constant non-float argument is passed to a
callee that is not `readonly`/`readnone` on that parameter. -/
def specArgNeed (c : CallOp) (a : CallArg) : Bool :=
  !a.constVal && !a.fpTy && c.calleeKnown && !(a.readOnly || a.readNone)

/-- The net effect of one `argStep` iteration on the accumulator. -/
def argStepCond (c : CallOp) (a : CallArg) : Bool :=
  !(a.constVal && c.calleeKnown && !c.calleeEmpty) && !a.fpTy &&
    c.calleeKnown && !(a.readOnly || a.readNone)

end AugCall


namespace FreeErase

end FreeErase

namespace StoreRule

/-- Facts of a store instruction queried by `visitStoreInst`
(EnzymeLogic.cpp:730-792): activity of the pointer and of the stored value,
whether the stored type is floating point or a pointer, whether the type
analysis reports a float as the first pointed-to type, and the store's
alignment, volatility, atomic ordering and sync scope. -/
structure StoreIn where
  constPtr : Bool
  constVal : Bool
  valFP : Bool
  valPtrTy : Bool
  firstPointerFloat : Bool
  align : Nat
  vol : Bool
  ord : Nat
  scope : Nat
deriving DecidableEq

/-- The attributes placed on the mirrored store `ts`
(EnzymeLogic.cpp:786-791). -/
structure MirStore where
  align : Nat
  vol : Bool
  ord : Nat
  scope : Nat
deriving DecidableEq

/-- The IR edit emitted by `visitStoreInst`: nothing, a zeroing of the
shadow location, a load of the shadow differential followed by a zeroing and
an `addToDiffe` into the stored value, or a forward mirrored store into the
shadow location. -/
inductive StoreEmit
  | noEdit
  | revZeroShadow (ts : MirStore)
  | revLoadZeroAdd (loadAlign : Nat) (ts : MirStore)
  | fwdShadowStore (usesShadowOfVal : Bool) (ts : MirStore)
deriving DecidableEq

/-- Embedding of `visitStoreInst` (EnzymeLogic.cpp:730-792).  A store
through a constant pointer is skipped.  Otherwise `FT` is the float type of
the stored value: the scalar type for float-typed values, the type
analysis's first-pointed-to float for non-pointer values, and null for
pointers.  Float stores edit only the reverse pass; integer/pointer stores
edit only the forward pass.  Every emitted mirrored store receives the
original alignment, volatility, ordering and sync scope. -/
def visitStoreInst (mode : DerivativeMode) (s : StoreIn) : StoreEmit :=
  if s.constPtr then .noEdit
  else
    let FT := if s.valFP then true
              else if !s.valPtrTy then s.firstPointerFloat else false
    if FT then
      if mode = .Reverse || mode = .Both then
        if s.constVal then .revZeroShadow ⟨s.align, s.vol, s.ord, s.scope⟩
        else .revLoadZeroAdd s.align ⟨s.align, s.vol, s.ord, s.scope⟩
      else .noEdit
    else
      if mode = .Forward || mode = .Both then
        .fwdShadowStore (!s.constVal) ⟨s.align, s.vol, s.ord, s.scope⟩
      else .noEdit

end StoreRule


namespace BinOp

end BinOp


namespace ArgsMap

/-- A (possibly call) instruction as inspected by
`compute_uncacheable_args_for_callsites`: whether it is a `CallInst` and
whether it is an `IntrinsicInst`. -/
structure CInst where
  isCall : Bool
  isIntrinsic : Bool
deriving DecidableEq

/-- Embedding of the instruction loop of
`compute_uncacheable_args_for_callsites` (EnzymeLogic.cpp:318-354): walk the
instructions, and for every call instruction that is not an intrinsic
record the result of `compute_uncacheable_args_for_one_callsite` under the
call (indexed here by instruction position); intrinsic call sites are
explicitly skipped (line 328-330).  The per-callsite analysis is passed as
the parameter `oneCallsite` since only the domain of the produced map is at
issue. -/
def acafcAux (oneCallsite : Nat → List (Nat × Bool)) :
    List CInst → Nat → List (Nat × List (Nat × Bool))
  | [], _ => []
  | inst :: rest, i =>
      if inst.isCall then
        if inst.isIntrinsic then acafcAux oneCallsite rest (i + 1)
        else (i, oneCallsite i) :: acafcAux oneCallsite rest (i + 1)
      else acafcAux oneCallsite rest (i + 1)

/-- Embedding of `compute_uncacheable_args_for_callsites`
(EnzymeLogic.cpp:318-354). -/
def compute_uncacheable_args_for_callsites
    (oneCallsite : Nat → List (Nat × Bool)) (F : List CInst) :
    List (Nat × List (Nat × Bool)) :=
  acafcAux oneCallsite F 0

end ArgsMap

namespace LoadMap

/-- The statically known callee of a call: `direct` is
`getCalledFunction()` (`none` for an indirect call) and `castAlloc` is the
function found under a constant-expression cast when it is an
allocation/deallocation function (EnzymeLogic.cpp:106-116, 141-151).  The
recorded Bool is the `isCertainMallocOrFree` classification of that
function, consumed here as an oracle bit. -/
structure CallTarget where
  direct : Option Bool
  castAlloc : Option Bool
deriving DecidableEq

/-- The callee after cast peeling: the cast-peeled allocation function
overrides the direct callee when present. -/
def resolveCalled (t : CallTarget) : Option Bool :=
  match t.castAlloc with
  | some f => some f
  | none => t.direct

/-- Classification of the underlying object (`GetUnderlyingObject`) of a
load's pointer operand: a function argument, a call, another load, or
anything else (EnzymeLogic.cpp:83-131). -/
inductive UObj
  | arg (a : Nat)
  | callObj (t : CallTarget)
  | loadObj
  | otherObj
deriving DecidableEq

/-- An instruction as inspected by `compute_uncacheable_load_map`: whether
it is a load, the classified underlying object of its pointer operand (only
meaningful for loads), and its callee when it is a call instruction. -/
structure MInst where
  isLoad : Bool
  obj : UObj
  call : Option CallTarget
deriving DecidableEq

/-- Default classification of a load from its underlying object
(EnzymeLogic.cpp:83-131): an argument is uncacheable iff the caller marked
it uncacheable; a call is cacheable only when its resolved callee is a
certain malloc/free; a load or any other origin is uncacheable. -/
def classifyDefault (ua : List (Nat × Bool)) : UObj → Bool
  | .arg a => (StdMap.find ua a).getD false
  | .callObj t =>
      match resolveCalled t with
      | some true => false
      | _ => true
  | .loadObj => true
  | .otherObj => true

/-- Whether an instruction is exempt from the mod-ref scan: a call whose
resolved callee is a certain malloc/free (EnzymeLogic.cpp:140-155). -/
def isExemptCall (J : MInst) : Bool :=
  match J.call with
  | some t =>
      match resolveCalled t with
      | some true => true
      | _ => false
  | none => false

/-- The inner loop of `compute_uncacheable_load_map`
(EnzymeLogic.cpp:134-163): scan every instruction `J` of the function,
skipping `J = L`, instructions dominating `L`, and exempt malloc/free
calls; report whether some remaining `J` is `isModSet` on `L`'s memory
location. -/
def modrefScan (F0 : List MInst) (dom modref : Nat → Nat → Bool) (i : Nat) :
    Bool :=
  (List.range F0.length).any fun j =>
    if j = i then false
    else if dom j i then false
    else if isExemptCall ((F0.get? j).getD ⟨false, .otherObj, none⟩) then false
    else modref j i

/-- The outer loop of `compute_uncacheable_load_map`
(EnzymeLogic.cpp:71-166), walking the instruction list and recording an
entry for every load. -/
def culmAux (F0 : List MInst) (dom modref : Nat → Nat → Bool)
    (ua : List (Nat × Bool)) : List MInst → Nat → List (Nat × Bool)
  | [], _ => []
  | inst :: rest, i =>
      if inst.isLoad then
        (i, classifyDefault ua inst.obj || modrefScan F0 dom modref i) ::
          culmAux F0 dom modref ua rest (i + 1)
      else culmAux F0 dom modref ua rest (i + 1)

/-- Embedding of `compute_uncacheable_load_map` (EnzymeLogic.cpp:68-168).
The dominator tree and the alias oracle are consumed as inputs: `dom j i`
states that instruction `j` dominates instruction `i`, and `modref j i`
that the alias oracle reports `j` as `isModSet` on the memory location of
load `i`. -/
def compute_uncacheable_load_map (F : List MInst)
    (dom modref : Nat → Nat → Bool) (ua : List (Nat × Bool)) :
    List (Nat × Bool) :=
  culmAux F dom modref ua F 0

/-- Decidable coverage condition reflecting the assertion at
EnzymeLogic.cpp:92: every load whose underlying object is a function
argument finds that argument in the caller-supplied uncacheable-args map. -/
def argCovered (ua : List (Nat × Bool)) (p : MInst) : Bool :=
  match p.obj with
  | .arg a => (StdMap.find ua a).isSome
  | _ => true

/-- Spec-side condition, written from the claim: the underlying object
classifies as uncacheable by default (an argument the caller marked
uncacheable, a call that is not a known allocation/free, another load, or
any other origin). -/
def SpecDefault (ua : List (Nat × Bool)) (o : UObj) : Prop :=
  (∃ a, o = .arg a ∧ StdMap.find ua a = some true) ∨
  (∃ t, o = .callObj t ∧ ¬ resolveCalled t = some true) ∨
  o = .loadObj ∨ o = .otherObj

/-- Spec-side condition, written from the claim: some instruction `J`
distinct from the load, not dominating it and not a known allocation/free
call, is reported as mod-writing the load's memory location. -/
def SpecModref (F : List MInst) (dom modref : Nat → Nat → Bool) (i : Nat) :
    Prop :=
  ∃ j J, F.get? j = some J ∧ j ≠ i ∧ dom j i = false ∧
    isExemptCall J = false ∧ modref j i = true

end LoadMap


namespace NeedRev

/-- Instruction kinds distinguished by `is_value_needed_in_reverse`
(EnzymeLogic.cpp:363-497).  `store` carries the value indices of its pointer
and value operands; `gep` carries its index operands; `selectI`,
`insertElem` and `extractElem` carry the operand compared against the
queried value; `binop` records whether the opcode is `fadd`/`fsub`. -/
inductive NIK
  | store (ptrOp valOp : Nat)
  | load
  | cast
  | phi
  | callI
  | branch
  | switchI
  | cmp
  | retI
  | binop (isFAddSub : Bool)
  | gep (indices : List Nat)
  | selectI (cond : Nat)
  | insertElem (idxOp : Nat)
  | extractElem (idxOp : Nat)
  | otherI
deriving DecidableEq

/-- A value of the analysed function: its defining instruction kind, its
users (by value index), whether its type is a float vector type, whether
the type analysis regards it as a possible pointer, whether the activity
oracle marks it a constant instruction, and the `originalToNewFn`-missing /
extract-value side condition of EnzymeLogic.cpp:486 for calls. -/
structure NInst where
  kind : NIK
  users : List Nat
  isFP : Bool
  isPtrTy : Bool
  isConstInst : Bool
  callSpecial : Bool
deriving DecidableEq

/-- The analysed function: a list of values indexed by position. -/
abbrev Prog := List NInst

def usersOf (P : Prog) (v : Nat) : List Nat :=
  ((P.get? v).map NInst.users).getD []

def kindOf (P : Prog) (v : Nat) : NIK :=
  ((P.get? v).map NInst.kind).getD .otherI

def isFPOf (P : Prog) (v : Nat) : Bool :=
  ((P.get? v).map NInst.isFP).getD false

def isPtrTyOf (P : Prog) (v : Nat) : Bool :=
  ((P.get? v).map NInst.isPtrTy).getD false

def isConstInstOf (P : Prog) (v : Nat) : Bool :=
  ((P.get? v).map NInst.isConstInst).getD false

def callSpecialOf (P : Prog) (v : Nat) : Bool :=
  ((P.get? v).map NInst.callSpecial).getD false

def isStoreK : NIK → Bool
  | .store _ _ => true
  | _ => false

/-- Whether the kind is a store whose pointer operand is `v`
(EnzymeLogic.cpp:401-404). -/
def storePtrIs : NIK → Nat → Bool
  | .store p _, v => p = v
  | _, _ => false

def isLoadCastPhi : NIK → Bool
  | .load | .cast | .phi => true
  | _ => false

def isCallK : NIK → Bool
  | .callI => true
  | _ => false

/-- The control-flow users forcing need outside combined mode
(EnzymeLogic.cpp:380). -/
def isBranchSwitchCall : NIK → Bool
  | .branch | .switchI | .callI => true
  | _ => false

def isFAddSubK : NIK → Bool
  | .binop fs => fs
  | _ => false

/-- A GEP user in which `v` does not appear in the index list
(EnzymeLogic.cpp:457-465). -/
def gepNoIndexUse : NIK → Nat → Bool
  | .gep idxs, v => !(idxs.contains v)
  | _, _ => false

/-- The user kinds skipped by the compound test of EnzymeLogic.cpp:472-481:
compares, branches, casts (including fp-extends), phis, returns, selects not
conditioned on `v`, and insert/extract-element not indexed by `v`. -/
def line472Cont : NIK → Nat → Bool
  | .cmp, _ => true
  | .branch, _ => true
  | .cast, _ => true
  | .phi, _ => true
  | .retI, _ => true
  | .selectI c, v => !(c = v)
  | .insertElem i, v => !(i = v)
  | .extractElem i, v => !(i = v)
  | _, _ => false

/-- Result of the pointer-user scan: an early `return true` or a fall
through (the `unknown` flag of EnzymeLogic.cpp:398-440 is initialised to
true and never cleared, so the scan never `continue`s the outer loop). -/
inductive ScanRes
  | retTrue
  | fall
deriving DecidableEq

/-- Embedding of the pointer-user scan of `is_value_needed_in_reverse`
(EnzymeLogic.cpp:399-438): stores through the pointer are skipped; a needed
load/cast/phi user or any call user forces need; all other users set the
(never-read) `unknown` flag and the scan falls through. -/
def scanPtrUsers (P : Prog) (needF : Nat → Bool) (v : Nat) :
    List Nat → ScanRes
  | [] => .fall
  | zu :: rest =>
      if storePtrIs (kindOf P zu) v = true then scanPtrUsers P needF v rest
      else if isLoadCastPhi (kindOf P zu) = true then
        if needF zu = true then .retTrue else scanPtrUsers P needF v rest
      else if isCallK (kindOf P zu) = true then .retTrue
      else scanPtrUsers P needF v rest

/-- Embedding of the user loop of `is_value_needed_in_reverse`
(EnzymeLogic.cpp:370-495).  `needF` is the recursive call at the next fuel
level with the current value added to the by-value `seen` map. -/
def goUsers (P : Prog) (needF : Nat → Bool) (tl : Bool) (v : Nat) :
    List Nat → Bool
  | [] => false
  | u :: rest =>
      if u = v then goUsers P needF tl v rest
      else if !tl && isBranchSwitchCall (kindOf P u) then true
      else if !tl && needF u then true
      else if (isFPOf P v = false ∧ isPtrTyOf P v = true) ∧
          scanPtrUsers P needF v (usersOf P v) = .retTrue then true
      else if isLoadCastPhi (kindOf P u) = true ∧ needF u = false then
        goUsers P needF tl v rest
      else if isFAddSubK (kindOf P u) = true then goUsers P needF tl v rest
      else if gepNoIndexUse (kindOf P u) v = true then goUsers P needF tl v rest
      else if isStoreK (kindOf P u) = true then goUsers P needF tl v rest
      else if line472Cont (kindOf P u) v = true then goUsers P needF tl v rest
      else if isCallK (kindOf P u) = true ∧ callSpecialOf P u = true then true
      else if isConstInstOf P u = true then goUsers P needF tl v rest
      else true

/-- Embedding of `is_value_needed_in_reverse` (EnzymeLogic.cpp:363-497)
with explicit recursion fuel.  The C++ `seen` map is passed by value and
every stored entry that a recursive call can observe is the provisional
`false`, so it is modelled as the list of values on the current recursion
path; a hit returns the stored provisional answer `false`. -/
def neededAux (P : Prog) (tl : Bool) : Nat → List Nat → Nat → Bool
  | 0, _, _ => false
  | fuel + 1, seen, v =>
      if v ∈ seen then false
      else goUsers P (fun u => neededAux P tl fuel (v :: seen) u) tl v
        (usersOf P v)

/-- Top-level entry of `is_value_needed_in_reverse`: empty `seen` map and
enough fuel for the longest possible recursion path. -/
def is_value_needed_in_reverse (P : Prog) (tl : Bool) (v : Nat) : Bool :=
  neededAux P tl (P.length + 1) [] v

/-- Example function for the C3 witness: value 0 is a pointer used by a
store through it (value 1) and by a call (value 2); value 3 is the stored
value. -/
def exProg : Prog :=
  [⟨.otherI, [1, 2], false, true, false, false⟩,
   ⟨.store 0 3, [], false, false, true, false⟩,
   ⟨.callI, [], false, false, false, false⟩,
   ⟨.otherI, [], false, false, false, false⟩]

end NeedRev


namespace AugCache

/-- The memoization key of `CreateAugmentedPrimal`
(EnzymeLogic.cpp:1426-1428): the function, the constant-argument set, the
uncacheable-argument map, the differential-return and return-used flags and
the type info.  Functions and type infos are identified by opaque numeric
identities. -/
structure AugSigKey where
  fn : Nat
  constant_args : List Nat
  uncacheable_args : List (Nat × Bool)
  differentialReturn : Bool
  returnUsed : Bool
  typeInfo : Nat
deriving DecidableEq

/-- The cached record (`AugmentedReturn`), reduced to the fields the
memoization protocol mutates: the built function (by identity) and the tape
type, `none` standing for the placeholder `nullptr` tape type.  The
remaining fields of the source struct are filled at construction and never
mutated by the caching protocol. -/
structure AugmentedReturn where
  fn : Nat
  tapeType : Option Nat
deriving DecidableEq

/-- A default record standing for the unreachable out-of-fuel case. -/
def dummyAug : AugmentedReturn := ⟨0, none⟩

/-- The module-level facts `CreateAugmentedPrimal` consults:
`metadataAug f` is the `enzyme_augment` registration of function `f`
(registered function identity and whether its return type matches `f`'s,
EnzymeLogic.cpp:1435-1483), and `subcalls k` lists the signature keys whose
augmented primals are recursively constructed while building the body for
`k` (the `CreateAugmentedPrimal` call at EnzymeLogic.cpp:2225, always with
`forceAnonymousTape` false). -/
structure ModuleInfo where
  metadataAug : Nat → Option (Nat × Bool)
  subcalls : AugSigKey → List AugSigKey

/-- The mutable state of the builder: the two static caches
`cachedfunctions` and `cachedfinished` (EnzymeLogic.cpp:1426-1427), the
multiset of function identities that received a call-site use, and a supply
of fresh function identities (each `Function::Create` / clone takes the
next one). -/
structure LogicState where
  cachedfunctions : List (AugSigKey × AugmentedReturn)
  cachedfinished : List (AugSigKey × Bool)
  fnUses : List Nat
  freshFn : Nat
deriving DecidableEq

def lookupCF (s : LogicState) (k : AugSigKey) : Option AugmentedReturn :=
  StdMap.find s.cachedfunctions k

/-- The reservation step of the generic path
(EnzymeLogic.cpp:1494 and 1548-1549): clone the function (a fresh
identity), insert the placeholder entry `AugmentedReturn(newFunc, nullptr,
...)` through `insert_or_assign`, and set `cachedfinished[tup] = false`. -/
def reserveAugmented (s : LogicState) (k : AugSigKey) : LogicState :=
  { s with
    cachedfunctions :=
      (StdMap.insert_or_assign s.cachedfunctions k ⟨s.freshFn, none⟩).1,
    cachedfinished := StdMap.mapAssign s.cachedfinished k false,
    freshFn := s.freshFn + 1 }

/-- Embedding of the memoization protocol of `CreateAugmentedPrimal`
(EnzymeLogic.cpp:1420-1862), with recursion fuel.  A cache hit returns the
cached record unchanged (lines 1429-1433).  On a miss, a function with
`enzyme_augment` metadata and empty constant-argument set is served from
the registration: a fresh wrapper when the return types match (lines
1452-1479), the registered function itself otherwise (line 1482).
Otherwise the generic path reserves a placeholder entry, recursively
constructs the augmented primals of the body's call sites (each returned
function receiving a call-site use), then builds the final function `NewF`,
overwrites the entry's `fn` in place, sets the tape type when the
placeholder was used (self-recursion) or an anonymous tape was forced, runs
`insert_or_assign` on `cachedfinished` (lines 1686, 1843-1853), and returns
the cached entry (line 1861). -/
def CreateAugmentedPrimal (M : ModuleInfo) :
    Nat → LogicState → AugSigKey → Bool → AugmentedReturn × LogicState
  | 0, s, k, _ =>
      (match lookupCF s k with
       | some r => r
       | none => dummyAug, s)
  | fuel + 1, s, k, forceAnonymousTape =>
      match lookupCF s k with
      | some r => (r, s)
      | none =>
        match (if k.constant_args = [] then M.metadataAug k.fn else none) with
        | some (foundcalled, retMatch) =>
            if retMatch then
              let cf := (StdMap.insert_or_assign s.cachedfunctions k
                ⟨s.freshFn, none⟩).1
              ((StdMap.find cf k).getD dummyAug,
               { s with cachedfunctions := cf, freshFn := s.freshFn + 1 })
            else
              let cf := (StdMap.insert_or_assign s.cachedfunctions k
                ⟨foundcalled, none⟩).1
              ((StdMap.find cf k).getD dummyAug,
               { s with cachedfunctions := cf })
        | none =>
            let placeholderFn := s.freshFn
            let s1 := reserveAugmented s k
            let s2 := (M.subcalls k).foldl
              (fun st k2 =>
                let rs := CreateAugmentedPrimal M fuel st k2 false
                { rs.2 with fnUses := rs.2.fnUses ++ [rs.1.fn] })
              s1
            let recursive := placeholderFn ∈ s2.fnUses || forceAnonymousTape
            let NewF := s2.freshFn
            let s3 := { s2 with
              cachedfunctions := StdMap.updateAt s2.cachedfunctions k
                (fun _ => ⟨NewF, if recursive then some NewF else none⟩),
              cachedfinished :=
                (StdMap.insert_or_assign s2.cachedfinished k true).1,
              freshFn := s2.freshFn + 1 }
            ((lookupCF s3 k).getD dummyAug, s3)

/-- The generic construction path is taken: no `enzyme_augment`
registration applies to the key. -/
def genericPath (M : ModuleInfo) (k : AugSigKey) : Prop :=
  ¬(k.constant_args = [] ∧ (M.metadataAug k.fn).isSome = true)

/-- Module facts for the C1 witness: no metadata, no sub-calls. -/
def exModule : ModuleInfo where
  metadataAug := fun _ => none
  subcalls := fun _ => []

/-- Module facts for the C1 counterexample: function 5 carries an
`enzyme_augment` registration pointing at function 7 with a mismatched
return type. -/
def cexModule : ModuleInfo where
  metadataAug := fun n => if n = 5 then some (7, false) else none
  subcalls := fun _ => []

/-- Keys and states used by the C1 witness and counterexample. -/
def exKey : AugSigKey := ⟨1, [0], [], false, false, 0⟩

def exKey2 : AugSigKey := ⟨2, [0], [], false, false, 0⟩

def cexKey1 : AugSigKey := ⟨5, [], [], false, false, 0⟩

def cexKey2 : AugSigKey := ⟨5, [], [], true, false, 0⟩

def exState0 : LogicState := ⟨[], [], [], 5⟩

def exEntry : AugmentedReturn := ⟨3, none⟩

def exStateHit : LogicState := ⟨[(exKey, exEntry)], [], [], 5⟩

end AugCache

/- ====================================================================== -/
/- THEOREMS                                                               -/
/- ====================================================================== -/

namespace StdMap

theorem find_emplace_self {K V : Type _} [DecidableEq K] (m : List (K × V))
    (k : K) (v : V) : find (emplace m k v).1 k = some ((emplace m k v).2) := by
  unfold emplace
  cases h : find m k with
  | some v0 => simpa using h
  | none =>
      simp only
      induction m with
      | nil => simp [find]
      | cons p rest ih =>
          unfold find at h ⊢
          by_cases hk : p.1 = k
          · simp [hk] at h
          · simpa [hk] using ih (by simpa [hk] using h)

theorem find_emplace_other {K V : Type _} [DecidableEq K] (m : List (K × V))
    (k q : K) (v : V) (hne : q ≠ k) : find (emplace m k v).1 q = find m q := by
  unfold emplace
  cases h : find m k with
  | some v0 => simp
  | none =>
      simp only
      induction m with
      | nil => simp [find, Ne.symm hne]
      | cons p rest ih =>
          unfold find at h ⊢
          by_cases hk : p.1 = k
          · simp [hk] at h
          · by_cases hq : p.1 = q
            · simp [hq]
            · simpa [hq] using ih (by simpa [hk] using h)

end StdMap

namespace UnreachCFG

theorem guLoop_invariant {n : Nat} (G : CFG n)
    (hc : ∀ a b : Fin n, a ∈ G.succs b → b ∈ G.preds a) :
    ∀ (known : Finset (Fin n)) (todo : List (Fin n)),
    (∀ b ∈ known, GuaranteedU G b) →
    (∀ b ∈ known, G.term b ≠ .ret) →
    (∀ b, b ∉ known → trigger G known b → b ∈ todo) →
    (∀ b ∈ guLoop G known todo, GuaranteedU G b) ∧
    (∀ b ∈ guLoop G known todo, G.term b ≠ .ret) ∧
    (∀ b, b ∉ guLoop G known todo → ¬ trigger G (guLoop G known todo) b) := by
  intro known todo
  induction known, todo using guLoop.induct G with
  | case1 known =>
      intro hGU hret htodo
      rw [guLoop]
      refine ⟨hGU, hret, ?_⟩
      intro b hb htrig
      exact absurd (htodo b hb htrig) (List.not_mem_nil b)
  | case2 known next rest hmem ih =>
      intro hGU hret htodo
      rw [guLoop]; simp only [if_pos hmem]
      apply ih hGU hret
      intro b hb htrig
      have := htodo b hb htrig
      rcases List.mem_cons.mp this with h | h
      · exact absurd (h ▸ hmem) hb
      · exact h
  | case3 known next rest hmem hterm ih =>
      intro hGU hret htodo
      rw [guLoop]; simp only [if_neg hmem, if_pos hterm]
      apply ih hGU hret
      intro b hb htrig
      have := htodo b hb htrig
      rcases List.mem_cons.mp this with h | h
      · subst h
        rcases htrig with h1 | ⟨h2, _⟩
        · rw [hterm] at h1; exact absurd h1 (by simp)
        · exact absurd hterm h2
      · exact h
  | case4 known next rest hmem hterm hunreach ih =>
      intro hGU hret htodo
      rw [guLoop]; simp only [if_neg hmem, if_neg hterm, if_pos hunreach]
      apply ih
      · intro b hb
        rcases Finset.mem_insert.mp hb with h | h
        · exact h ▸ GuaranteedU.seed next hunreach
        · exact hGU b h
      · intro b hb
        rcases Finset.mem_insert.mp hb with h | h
        · exact h ▸ hterm
        · exact hret b h
      · intro b hb htrig
        have hbne : b ≠ next := by
          intro h; exact hb (h ▸ Finset.mem_insert_self next known)
        have hbk : b ∉ known := fun h => hb (Finset.mem_insert_of_mem h)
        rcases htrig with h1 | ⟨h2, h3⟩
        · have := htodo b hbk (Or.inl h1)
          rcases List.mem_cons.mp this with h | h
          · exact absurd h hbne
          · exact List.mem_append_left _ h
        · by_cases hall : ∀ s ∈ G.succs b, s ∈ known
          · have := htodo b hbk (Or.inr ⟨h2, hall⟩)
            rcases List.mem_cons.mp this with h | h
            · exact absurd h hbne
            · exact List.mem_append_left _ h
          · push_neg at hall
            obtain ⟨s, hs, hsk⟩ := hall
            have : s = next := by
              rcases Finset.mem_insert.mp (h3 s hs) with h | h
              · exact h
              · exact absurd h hsk
            exact List.mem_append_right _ (hc next b (this ▸ hs))
  | case5 known next rest hmem hterm hunreach hall ih =>
      intro hGU hret htodo
      rw [guLoop]; simp only [if_neg hmem, if_neg hterm, if_neg hunreach, if_pos hall]
      apply ih
      · intro b hb
        rcases Finset.mem_insert.mp hb with h | h
        · subst h
          refine GuaranteedU.close b hterm ?_
          intro s hs
          exact hGU s (by simpa using List.all_eq_true.mp hall s hs)
        · exact hGU b h
      · intro b hb
        rcases Finset.mem_insert.mp hb with h | h
        · exact h ▸ hterm
        · exact hret b h
      · intro b hb htrig
        have hbne : b ≠ next := by
          intro h; exact hb (h ▸ Finset.mem_insert_self next known)
        have hbk : b ∉ known := fun h => hb (Finset.mem_insert_of_mem h)
        rcases htrig with h1 | ⟨h2, h3⟩
        · have := htodo b hbk (Or.inl h1)
          rcases List.mem_cons.mp this with h | h
          · exact absurd h hbne
          · exact List.mem_append_left _ h
        · by_cases hallb : ∀ s ∈ G.succs b, s ∈ known
          · have := htodo b hbk (Or.inr ⟨h2, hallb⟩)
            rcases List.mem_cons.mp this with h | h
            · exact absurd h hbne
            · exact List.mem_append_left _ h
          · push_neg at hallb
            obtain ⟨s, hs, hsk⟩ := hallb
            have : s = next := by
              rcases Finset.mem_insert.mp (h3 s hs) with h | h
              · exact h
              · exact absurd h hsk
            exact List.mem_append_right _ (hc next b (this ▸ hs))
  | case6 known next rest hmem hterm hunreach hall ih =>
      intro hGU hret htodo
      rw [guLoop]; simp only [if_neg hmem, if_neg hterm, if_neg hunreach, if_neg hall]
      apply ih hGU hret
      intro b hb htrig
      have := htodo b hb htrig
      rcases List.mem_cons.mp this with h | h
      · subst h
        rcases htrig with h1 | ⟨h2, h3⟩
        · exact absurd h1 hunreach
        · exact absurd (List.all_eq_true.mpr (by simpa using h3)) hall
      · exact h

theorem mem_of_guaranteedU {n : Nat} (G : CFG n) (R : Finset (Fin n))
    (hclosed : ∀ b, b ∉ R → ¬ trigger G R b) :
    ∀ b, GuaranteedU G b → b ∈ R := by
  intro b h
  induction h with
  | seed b hb =>
      by_contra hmem
      exact hclosed b hmem (Or.inl hb)
  | close b hret hsucc ih =>
      by_contra hmem
      exact hclosed b hmem (Or.inr ⟨hret, fun s hs => ih s hs⟩)

/-- C5: `getGuaranteedUnreachable` computes exactly the set `U` of blocks
from which every path reaches an unreachable terminator, as the fixed point
seeded with blocks whose terminator is `unreachable` and closed under adding
any block all of whose successors are already in `U`; a block whose
terminator is a return instruction is never added to `U`. -/
theorem getGuaranteedUnreachable_spec {n : Nat} (G : CFG n)
    (hc : ∀ a b : Fin n, a ∈ G.succs b → b ∈ G.preds a) :
    (∀ b, b ∈ getGuaranteedUnreachable G ↔ GuaranteedU G b) ∧
    (∀ b, G.term b = .ret → b ∉ getGuaranteedUnreachable G) := by
  have h := guLoop_invariant G hc ∅ (List.finRange n)
    (by simp) (by simp) (by intro b _ _; exact List.mem_finRange b)
  obtain ⟨hsound, hret, hclosed⟩ := h
  constructor
  · intro b
    constructor
    · exact hsound b
    · exact mem_of_guaranteedU G _ hclosed b
  · intro b hb hmem
    exact hret b hmem hb

/-- Witness for C5: the theorem applied to a concrete four-block CFG. -/
theorem getGuaranteedUnreachable_spec_witness :
    (∀ a b : Fin 4, a ∈ exCFG.succs b → b ∈ exCFG.preds a) ∧
    ((∀ b, b ∈ getGuaranteedUnreachable exCFG ↔ GuaranteedU exCFG b) ∧
     (∀ b, exCFG.term b = .ret → b ∉ getGuaranteedUnreachable exCFG)) :=
  ⟨by decide, getGuaranteedUnreachable_spec exCFG (by decide)⟩

end UnreachCFG

namespace StdMap

theorem find_nil {K V : Type _} [DecidableEq K] (k : K) :
    find ([] : List (K × V)) k = none := rfl

theorem find_cons {K V : Type _} [DecidableEq K] (k0 : K) (v0 : V)
    (rest : List (K × V)) (k : K) :
    find ((k0, v0) :: rest) k = if k0 = k then some v0 else find rest k := rfl

theorem emplace_not_found {K V : Type _} [DecidableEq K] {m : List (K × V)}
    {k : K} (v : V) (h : find m k = none) :
    emplace m k v = (m ++ [(k, v)], v) := by
  unfold emplace; rw [h]

theorem find_append_self {K V : Type _} [DecidableEq K] {m : List (K × V)}
    {k : K} (v : V) (h : find m k = none) :
    find (m ++ [(k, v)]) k = some v := by
  induction m with
  | nil => simp [find]
  | cons p rest ih =>
      rw [find_cons] at h
      by_cases hk : p.1 = k
      · rw [if_pos hk] at h; exact Option.noConfusion h
      · rw [if_neg hk] at h
        rw [List.cons_append, find_cons, if_neg hk]
        exact ih h

theorem find_ioa_self {K V : Type _} [DecidableEq K] {m : List (K × V)}
    {k : K} (v : V) (h : find m k = none) :
    find (insert_or_assign m k v).1 k = some v := by
  unfold insert_or_assign
  rw [emplace_not_found v h]
  exact find_append_self v h

theorem find_ioa_other {K V : Type _} [DecidableEq K] (m : List (K × V))
    (k q : K) (v : V) (hne : q ≠ k) :
    find (insert_or_assign m k v).1 q = find m q := by
  unfold insert_or_assign
  exact find_emplace_other m k q v hne

theorem find_updateAt_self {K V : Type _} [DecidableEq K] {m : List (K × V)}
    {k : K} {v : V} (f : V → V) (h : find m k = some v) :
    find (updateAt m k f) k = some (f v) := by
  induction m with
  | nil => simp [find] at h
  | cons p rest ih =>
      rw [find_cons] at h
      unfold updateAt
      rw [List.map_cons]
      by_cases hk : p.1 = k
      · rw [if_pos hk] at h
        injection h with h
        rw [if_pos hk, find_cons, if_pos hk, h]
      · rw [if_neg hk] at h
        rw [if_neg hk, find_cons, if_neg hk]
        exact ih h

theorem find_updateAt_other {K V : Type _} [DecidableEq K] (m : List (K × V))
    (k q : K) (f : V → V) (hne : q ≠ k) :
    find (updateAt m k f) q = find m q := by
  induction m with
  | nil => rfl
  | cons p rest ih =>
      unfold updateAt
      rw [List.map_cons]
      by_cases hk : p.1 = k
      · have h1 : ¬ p.1 = q := by rw [hk]; exact fun hh => hne hh.symm
        rw [if_pos hk, find_cons, if_neg h1, find_cons, if_neg h1]
        exact ih
      · rw [if_neg hk, find_cons, find_cons]
        by_cases hq : p.1 = q
        · rw [if_pos hq, if_pos hq]
        · rw [if_neg hq, if_neg hq]
          exact ih

/-- C10: the local `insert_or_assign` helper never replaces an existing
entry: if the key is already present the map is left unchanged and the
existing entry is returned (the reassignment code after the emplace is
unreachable), and if the key is absent the value is inserted; hence cache
updates routed through this helper always preserve the first value stored
for a key. -/
theorem insert_or_assign_keeps_first {K V : Type _} [DecidableEq K]
    (m : List (K × V)) (k : K) (v : V) :
    (∀ v0, find m k = some v0 → insert_or_assign m k v = (m, v0)) ∧
    (find m k = none → insert_or_assign m k v = (m ++ [(k, v)], v)) := by
  unfold insert_or_assign emplace
  constructor
  · intro v0 h; rw [h]
  · intro h; rw [h]

/-- Witness for C10: a key already bound to 2 keeps its value when 99 is
inserted through the helper. -/
theorem insert_or_assign_keeps_first_witness :
    find [(1, 2)] 1 = some 2 ∧
    insert_or_assign [(1, 2)] 1 (99 : Nat) = ([(1, 2)], 2) :=
  ⟨by decide, (insert_or_assign_keeps_first [(1, 2)] 1 99).1 2 (by decide)⟩

end StdMap

namespace AugCall

theorem argStep_eq (c : CallOp) (mp : Bool) (a : CallArg) :
    argStep c mp a = (mp || argStepCond c a) := by
  rcases a with ⟨cv, fp, ro, rn⟩
  rcases c with ⟨ck, ce, crn, rfp, rcv, args, bu⟩
  cases cv <;> cases fp <;> cases ro <;> cases rn <;> cases ck <;> cases ce <;>
    simp [argStep, argStepCond]

theorem foldl_argStep (c : CallOp) (args : List CallArg) :
    ∀ mp : Bool, args.foldl (argStep c) mp = (mp || args.any (argStepCond c)) := by
  induction args with
  | nil => intro mp; simp
  | cons a rest ih =>
      intro mp
      simp only [List.foldl_cons, List.any_cons]
      rw [argStep_eq, ih, Bool.or_assoc]

theorem any_congrList {α : Type _} (l : List α) (f g : α → Bool)
    (h : ∀ a, f a = g a) : l.any f = l.any g := by
  induction l with
  | nil => rfl
  | cons a rest ih => simp [List.any_cons, h, ih]

/-- C7: `shouldAugmentCall` returns true exactly when the block does not end
in `unreachable` and one of the listed conditions holds: the callee may read
memory (is not readnone), the result is a non-float non-constant value, the
callee is unknown or empty, or a non-constant non-float argument is passed
to a callee that is not readonly/readnone on that parameter. -/
theorem shouldAugmentCall_spec (c : CallOp) :
    shouldAugmentCall c =
      (!c.blockUnreachable &&
        (specReadsMem c || specRetNeed c || specUnknown c ||
          c.args.any (specArgNeed c))) := by
  rcases c with ⟨ck, ce, crn, rfp, rcv, args, bu⟩
  unfold shouldAugmentCall
  dsimp only
  rw [foldl_argStep]
  cases bu
  case true => simp
  case false =>
    simp only [Bool.not_false, Bool.true_and]
    cases ck
    case false =>
      simp [specReadsMem, specRetNeed, specUnknown]
    case true =>
      cases ce
      case true =>
        simp [specReadsMem, specRetNeed, specUnknown]
      case false =>
        have harg : args.any (argStepCond ⟨true, false, crn, rfp, rcv, args, false⟩)
            = args.any (specArgNeed ⟨true, false, crn, rfp, rcv, args, false⟩) := by
          apply any_congrList
          intro a
          rcases a with ⟨cv, fp, ro, rn⟩
          cases cv <;> cases fp <;> cases ro <;> cases rn <;> rfl
        simp only [specReadsMem, specRetNeed, specUnknown]
        cases crn <;> cases rfp <;> cases rcv <;> simp [harg]

end AugCall

namespace FreeErase

end FreeErase

namespace StoreRule

/-- C6: for a store of a value containing a float through an active pointer,
the reverse pass zeroes the shadow location when the stored value is
constant, and otherwise loads the shadow differential, zeroes the shadow
location and accumulates the differential into the stored value; and every
mirrored store the handler emits for any store and mode — the float reverse
cases as well as the integer/pointer forward case — copies the original
store's alignment, volatility, atomic ordering and sync scope. -/
theorem visitStoreInst_spec (mode : DerivativeMode) (s : StoreIn)
    (hp : s.constPtr = false)
    (hf : s.valFP = true ∨ (s.valPtrTy = false ∧ s.firstPointerFloat = true))
    (hm : mode = .Reverse ∨ mode = .Both) :
    (s.constVal = true →
      visitStoreInst mode s = .revZeroShadow ⟨s.align, s.vol, s.ord, s.scope⟩) ∧
    (s.constVal = false →
      visitStoreInst mode s =
        .revLoadZeroAdd s.align ⟨s.align, s.vol, s.ord, s.scope⟩) ∧
    (∀ (m : DerivativeMode) (s2 : StoreIn) (ts : MirStore) (la : Nat)
        (bb : Bool),
      (visitStoreInst m s2 = .revZeroShadow ts ∨
       visitStoreInst m s2 = .revLoadZeroAdd la ts ∨
       visitStoreInst m s2 = .fwdShadowStore bb ts) →
      ts = ⟨s2.align, s2.vol, s2.ord, s2.scope⟩) := by
  have hFT : (if s.valFP = true then true
              else if (!s.valPtrTy) = true then s.firstPointerFloat else false)
      = true := by
    rcases hf with h | ⟨h1, h2⟩
    · simp [h]
    · cases hv : s.valFP
      · simp [h1, h2]
      · simp [hv]
  have key : visitStoreInst mode s =
      (if s.constVal then .revZeroShadow ⟨s.align, s.vol, s.ord, s.scope⟩
       else .revLoadZeroAdd s.align ⟨s.align, s.vol, s.ord, s.scope⟩) := by
    unfold visitStoreInst
    rw [if_neg (by simp [hp])]
    dsimp only
    rw [if_pos hFT, if_pos (by rcases hm with h | h <;> simp [h])]
  refine ⟨?_, ?_, ?_⟩
  · intro hcv
    rw [key, if_pos hcv]
  · intro hcv
    rw [key, if_neg (by simp [hcv])]
  · intro m s2 ts la bb hout
    clear hf hm hp hFT key
    rcases s2 with ⟨cp, cv, vf, vp, fpf, al, vo, od, sc⟩
    cases cp <;> cases cv <;> cases vf <;> cases vp <;> cases fpf <;> cases m <;>
      simp [visitStoreInst] at hout <;> (try simp_all) <;>
      (obtain ⟨h1, h2⟩ := hout; subst h1; exact h2.symm)

/-- Witness for C6: a float store through an active pointer with constant
stored value zeroes the shadow and copies the attributes. -/
theorem visitStoreInst_spec_witness :
    ((⟨false, true, true, false, false, 8, true, 2, 3⟩ : StoreIn).constPtr
        = false) ∧
    (((⟨false, true, true, false, false, 8, true, 2, 3⟩ : StoreIn).valFP = true) ∨
      (((⟨false, true, true, false, false, 8, true, 2, 3⟩ : StoreIn).valPtrTy
          = false) ∧
       ((⟨false, true, true, false, false, 8, true, 2, 3⟩ : StoreIn).firstPointerFloat
          = true))) ∧
    (DerivativeMode.Reverse = DerivativeMode.Reverse ∨
      DerivativeMode.Reverse = DerivativeMode.Both) ∧
    visitStoreInst .Reverse ⟨false, true, true, false, false, 8, true, 2, 3⟩ =
      .revZeroShadow ⟨8, true, 2, 3⟩ :=
  ⟨rfl, Or.inl rfl, Or.inl rfl,
    (visitStoreInst_spec .Reverse ⟨false, true, true, false, false, 8, true, 2, 3⟩
      rfl (Or.inl rfl) (Or.inl rfl)).1 rfl⟩

end StoreRule

namespace BinOp

end BinOp

namespace ArgsMap

/-- Counterexample for C8: a function consisting of a single intrinsic call
site yields an empty uncacheable-args map, so the lookup for that call site
fails, contradicting the claim that the map contains an entry for every
call site including intrinsic call sites. -/
theorem compute_uncacheable_args_counterexample :
    compute_uncacheable_args_for_callsites (fun _ => []) [⟨true, true⟩] = [] ∧
    StdMap.find
      (compute_uncacheable_args_for_callsites (fun _ => []) [⟨true, true⟩]) 0 =
      none := by
  constructor <;> rfl

theorem find_acafcAux (oneCallsite : Nat → List (Nat × Bool)) :
    ∀ (F : List CInst) (base i : Nat) (inst : CInst),
    F.get? i = some inst → inst.isCall = true → inst.isIntrinsic = false →
    StdMap.find (acafcAux oneCallsite F base) (base + i) =
      some (oneCallsite (base + i)) := by
  intro F
  induction F with
  | nil => intro base i inst h; simp at h
  | cons hd tl ih =>
      intro base i inst hget hcall hni
      cases i with
      | zero =>
          simp only [List.get?_cons_zero, Option.some_inj] at hget
          subst hget
          simp [acafcAux, hcall, hni, StdMap.find]
      | succ i0 =>
          simp only [List.get?_cons_succ] at hget
          have hstep := ih (base + 1) i0 inst hget hcall hni
          have harith : base + 1 + i0 = base + (i0 + 1) := by omega
          rw [harith] at hstep
          unfold acafcAux
          cases hc : hd.isCall
          · rw [if_neg (by simp [hc])]
            exact hstep
          · cases hi : hd.isIntrinsic
            · rw [if_pos (by simp [hc]), if_neg (by simp [hi]),
                StdMap.find_cons, if_neg (by omega)]
              exact hstep
            · rw [if_pos (by simp [hc]), if_pos (by simp [hi])]
              exact hstep

/-- C8 (amended): the map produced by
`compute_uncacheable_args_for_callsites` contains an entry for every call
site that is not an intrinsic call site (including calls whose callee is
not statically known), so every lookup of the map made during instruction
dispatch — which routes intrinsic calls to the intrinsic visitors rather
than to `visitCallInst` — succeeds; intrinsic call sites themselves are
skipped and receive no entry. -/
theorem compute_uncacheable_args_spec (oneCallsite : Nat → List (Nat × Bool))
    (F : List CInst) (i : Nat) (inst : CInst) (hget : F.get? i = some inst)
    (hcall : inst.isCall = true) (hni : inst.isIntrinsic = false) :
    StdMap.find (compute_uncacheable_args_for_callsites oneCallsite F) i =
      some (oneCallsite i) := by
  have h := find_acafcAux oneCallsite F 0 i inst hget hcall hni
  simpa using h

/-- Witness for C8 (amended): a single non-intrinsic call site receives an
entry. -/
theorem compute_uncacheable_args_spec_witness :
    ([(⟨true, false⟩ : CInst)].get? 0 = some ⟨true, false⟩) ∧
    ((⟨true, false⟩ : CInst).isCall = true) ∧
    ((⟨true, false⟩ : CInst).isIntrinsic = false) ∧
    StdMap.find
      (compute_uncacheable_args_for_callsites (fun _ => [(0, true)])
        [⟨true, false⟩]) 0 = some [(0, true)] :=
  ⟨rfl, rfl, rfl,
    compute_uncacheable_args_spec (fun _ => [(0, true)]) [⟨true, false⟩] 0
      ⟨true, false⟩ rfl rfl rfl⟩

end ArgsMap

namespace LoadMap

theorem find_culmAux (F0 : List MInst) (dom modref : Nat → Nat → Bool)
    (ua : List (Nat × Bool)) :
    ∀ (F : List MInst) (base i : Nat) (inst : MInst),
    F.get? i = some inst → inst.isLoad = true →
    StdMap.find (culmAux F0 dom modref ua F base) (base + i) =
      some (classifyDefault ua inst.obj || modrefScan F0 dom modref (base + i)) := by
  intro F
  induction F with
  | nil => intro base i inst h; simp at h
  | cons hd tl ih =>
      intro base i inst hget hload
      cases i with
      | zero =>
          simp only [List.get?_cons_zero, Option.some_inj] at hget
          subst hget
          simp [culmAux, hload, StdMap.find]
      | succ i0 =>
          simp only [List.get?_cons_succ] at hget
          have hstep := ih (base + 1) i0 inst hget hload
          have harith : base + 1 + i0 = base + (i0 + 1) := by omega
          rw [harith] at hstep
          unfold culmAux
          cases hl : hd.isLoad
          · rw [if_neg (by simp [hl])]
            exact hstep
          · rw [if_pos (by simp [hl]), StdMap.find_cons, if_neg (by omega)]
            exact hstep

theorem classifyDefault_iff (ua : List (Nat × Bool)) (o : UObj)
    (hcover : ∀ a, o = .arg a → (StdMap.find ua a).isSome) :
    classifyDefault ua o = true ↔ SpecDefault ua o := by
  cases o with
  | arg a =>
      have hs := hcover a rfl
      unfold classifyDefault SpecDefault
      cases hfind : StdMap.find ua a with
      | none => rw [hfind] at hs; simp at hs
      | some bv =>
          cases bv <;> simp [hfind]
  | callObj t =>
      unfold classifyDefault SpecDefault
      cases hr : resolveCalled t with
      | none => simp [hr]
      | some bv => cases bv <;> simp [hr]
  | loadObj => simp [classifyDefault, SpecDefault]
  | otherObj => simp [classifyDefault, SpecDefault]

theorem modrefScan_iff (F : List MInst) (dom modref : Nat → Nat → Bool)
    (i : Nat) :
    modrefScan F dom modref i = true ↔ SpecModref F dom modref i := by
  unfold modrefScan SpecModref
  rw [List.any_eq_true]
  constructor
  · rintro ⟨j, hjmem, hj⟩
    have hjlt : j < F.length := List.mem_range.mp hjmem
    have hgetj : F.get? j = some (F.get ⟨j, hjlt⟩) := List.get?_eq_get hjlt
    have hgd : (F.get? j).getD ⟨false, .otherObj, none⟩ = F.get ⟨j, hjlt⟩ := by
      rw [hgetj]; rfl
    rw [hgd] at hj
    by_cases h1 : j = i
    · rw [if_pos h1] at hj; simp at hj
    · rw [if_neg h1] at hj
      by_cases h2 : dom j i = true
      · rw [if_pos h2] at hj; simp at hj
      · rw [if_neg h2] at hj
        by_cases h3 : isExemptCall (F.get ⟨j, hjlt⟩) = true
        · rw [if_pos h3] at hj; simp at hj
        · rw [if_neg h3] at hj
          exact ⟨j, F.get ⟨j, hjlt⟩, hgetj, h1,
            by simpa using h2, by simpa using h3, hj⟩
  · rintro ⟨j, J, hget, hne, hdom, hex, hmr⟩
    have hjlt : j < F.length := by
      by_contra hge
      rw [List.get?_eq_none.mpr (by omega)] at hget
      exact Option.noConfusion hget
    have hgd : (F.get? j).getD ⟨false, .otherObj, none⟩ = J := by
      rw [hget]; rfl
    refine ⟨j, List.mem_range.mpr hjlt, ?_⟩
    rw [if_neg hne, if_neg (by simp [hdom]), hgd, if_neg (by simp [hex])]
    exact hmr

/-- C2: `compute_uncacheable_load_map` has an entry for every load `L`, and
marks `L` uncacheable if and only if either the underlying object of its
pointer operand classifies as uncacheable by default (an argument the
caller marked uncacheable, a call that is not a known allocation/free,
another load, or any other origin), or some instruction `J` distinct from
`L` that does not dominate `L` is reported by the alias oracle as
mod-writing `L`'s memory location, known allocation/free calls being exempt
from this second check. -/
theorem compute_uncacheable_load_map_spec (F : List MInst)
    (dom modref : Nat → Nat → Bool) (ua : List (Nat × Bool))
    (hcover : F.all (argCovered ua) = true) :
    ∀ i inst, F.get? i = some inst → inst.isLoad = true →
    ∃ bb, StdMap.find (compute_uncacheable_load_map F dom modref ua) i =
        some bb ∧
      (bb = true ↔ SpecDefault ua inst.obj ∨ SpecModref F dom modref i) := by
  intro i inst hget hload
  have h := find_culmAux F dom modref ua F 0 i inst hget hload
  simp only [Nat.zero_add] at h
  refine ⟨_, h, ?_⟩
  rw [Bool.or_eq_true]
  have hmem : inst ∈ F := List.get?_mem hget
  have hcov := List.all_eq_true.mp hcover inst hmem
  rw [classifyDefault_iff ua inst.obj ?_]
  · rw [modrefScan_iff]
  · intro a ha
    rw [argCovered, ha] at hcov
    simpa using hcov

/-- Witness for C2: a two-instruction function consisting of a load from an
uncacheable argument and another instruction that mod-writes it. -/
theorem compute_uncacheable_load_map_spec_witness :
    ([(⟨true, .arg 0, none⟩ : MInst),
        ⟨false, .otherObj, none⟩].all (argCovered [(0, true)]) = true) ∧
    ∃ bb,
      StdMap.find
        (compute_uncacheable_load_map
          [⟨true, .arg 0, none⟩, ⟨false, .otherObj, none⟩]
          (fun _ _ => false) (fun _ _ => true) [(0, true)]) 0 = some bb ∧
      (bb = true ↔
        SpecDefault [(0, true)] (UObj.arg 0) ∨
        SpecModref [⟨true, .arg 0, none⟩, ⟨false, .otherObj, none⟩]
          (fun _ _ => false) (fun _ _ => true) 0) :=
  ⟨by decide, compute_uncacheable_load_map_spec
    [⟨true, .arg 0, none⟩, ⟨false, .otherObj, none⟩]
    (fun _ _ => false) (fun _ _ => true) [(0, true)] (by decide) 0
    ⟨true, .arg 0, none⟩ rfl rfl⟩

end LoadMap

namespace NeedRev

theorem isStoreK_of_storePtrIs {k : NIK} {v : Nat}
    (h : storePtrIs k v = true) : isStoreK k = true := by
  cases k <;> simp_all [storePtrIs, isStoreK]

theorem not_isStoreK_of_isLoadCastPhi {k : NIK}
    (h : isLoadCastPhi k = true) : isStoreK k = false := by
  cases k <;> simp_all [isLoadCastPhi, isStoreK]

theorem not_isStoreK_of_isCallK {k : NIK} (h : isCallK k = true) :
    isStoreK k = false := by
  cases k <;> simp_all [isCallK, isStoreK]

theorem not_isStoreK_of_isBranchSwitchCall {k : NIK}
    (h : isBranchSwitchCall k = true) : isStoreK k = false := by
  cases k <;> simp_all [isBranchSwitchCall, isStoreK]

theorem scanPtr_retTrue (P : Prog) (needF : Nat → Bool) (v : Nat) :
    ∀ zus, scanPtrUsers P needF v zus = .retTrue →
    ∃ zu ∈ zus, isStoreK (kindOf P zu) = false := by
  intro zus
  induction zus with
  | nil => intro h; simp [scanPtrUsers] at h
  | cons zu rest ih =>
      intro h
      unfold scanPtrUsers at h
      by_cases h1 : storePtrIs (kindOf P zu) v = true
      · rw [if_pos h1] at h
        obtain ⟨w, hw, hws⟩ := ih h
        exact ⟨w, List.mem_cons_of_mem _ hw, hws⟩
      · rw [if_neg h1] at h
        by_cases h2 : isLoadCastPhi (kindOf P zu) = true
        · rw [if_pos h2] at h
          by_cases h3 : needF zu = true
          · exact ⟨zu, List.mem_cons_self _ _,
              not_isStoreK_of_isLoadCastPhi h2⟩
          · rw [if_neg h3] at h
            obtain ⟨w, hw, hws⟩ := ih h
            exact ⟨w, List.mem_cons_of_mem _ hw, hws⟩
        · rw [if_neg h2] at h
          by_cases h4 : isCallK (kindOf P zu) = true
          · exact ⟨zu, List.mem_cons_self _ _, not_isStoreK_of_isCallK h4⟩
          · rw [if_neg h4] at h
            obtain ⟨w, hw, hws⟩ := ih h
            exact ⟨w, List.mem_cons_of_mem _ hw, hws⟩

theorem scanPtr_allStores (P : Prog) (needF : Nat → Bool) (v : Nat) :
    ∀ zus, (∀ zu ∈ zus, storePtrIs (kindOf P zu) v = true) →
    scanPtrUsers P needF v zus = .fall := by
  intro zus
  induction zus with
  | nil => intro _; rfl
  | cons zu rest ih =>
      intro h
      unfold scanPtrUsers
      rw [if_pos (h zu (List.mem_cons_self _ _))]
      exact ih (fun w hw => h w (List.mem_cons_of_mem _ hw))

theorem needed_store_false (P : Prog) (tl : Bool)
    (hwf : ∀ inst ∈ P, isStoreK inst.kind = true → inst.users = []) :
    ∀ (f : Nat) (seen : List Nat) (u : Nat), isStoreK (kindOf P u) = true →
    neededAux P tl f seen u = false := by
  intro f seen u hst
  cases f with
  | zero => rfl
  | succ f0 =>
      unfold neededAux
      by_cases hm : u ∈ seen
      · rw [if_pos hm]
      · rw [if_neg hm]
        have husers : usersOf P u = [] := by
          cases hget : P.get? u with
          | none =>
              rw [List.get?_eq_getElem?] at hget
              simp [usersOf, hget]
          | some inst =>
              have hmem : inst ∈ P := List.get?_mem hget
              rw [List.get?_eq_getElem?] at hget
              have hk : kindOf P u = inst.kind := by simp [kindOf, hget]
              rw [hk] at hst
              simp [usersOf, hget, hwf inst hmem hst]
        rw [husers]
        rfl

theorem goUsers_true_nonstore (P : Prog) (needF : Nat → Bool) (tl : Bool)
    (v : Nat) (hneedF : ∀ u, isStoreK (kindOf P u) = true → needF u = false) :
    ∀ us, (∀ x ∈ us, x ∈ usersOf P v) → goUsers P needF tl v us = true →
    ∃ u ∈ usersOf P v, isStoreK (kindOf P u) = false := by
  intro us
  induction us with
  | nil => intro _ h; simp [goUsers] at h
  | cons u rest ih =>
      intro hsub h
      have hrest : ∀ x ∈ rest, x ∈ usersOf P v :=
        fun x hx => hsub x (List.mem_cons_of_mem _ hx)
      have humem : u ∈ usersOf P v := hsub u (List.mem_cons_self _ _)
      unfold goUsers at h
      by_cases h1 : u = v
      · rw [if_pos h1] at h; exact ih hrest h
      · rw [if_neg h1] at h
        by_cases h2 : (!tl && isBranchSwitchCall (kindOf P u)) = true
        · exact ⟨u, humem,
            not_isStoreK_of_isBranchSwitchCall (Bool.and_elim_right h2)⟩
        · rw [if_neg h2] at h
          by_cases h3 : (!tl && needF u) = true
          · refine ⟨u, humem, ?_⟩
            have hn := Bool.and_elim_right h3
            cases hs : isStoreK (kindOf P u)
            · rfl
            · rw [hneedF u hs] at hn; exact absurd hn (by simp)
          · rw [if_neg h3] at h
            by_cases h4 : (isFPOf P v = false ∧ isPtrTyOf P v = true) ∧
                scanPtrUsers P needF v (usersOf P v) = .retTrue
            · exact scanPtr_retTrue P needF v (usersOf P v) h4.2
            · rw [if_neg h4] at h
              by_cases h5 : isLoadCastPhi (kindOf P u) = true ∧ needF u = false
              · rw [if_pos h5] at h; exact ih hrest h
              · rw [if_neg h5] at h
                by_cases h6 : isFAddSubK (kindOf P u) = true
                · rw [if_pos h6] at h; exact ih hrest h
                · rw [if_neg h6] at h
                  by_cases h7 : gepNoIndexUse (kindOf P u) v = true
                  · rw [if_pos h7] at h; exact ih hrest h
                  · rw [if_neg h7] at h
                    by_cases h8 : isStoreK (kindOf P u) = true
                    · rw [if_pos h8] at h; exact ih hrest h
                    · rw [if_neg h8] at h
                      by_cases h9 : line472Cont (kindOf P u) v = true
                      · rw [if_pos h9] at h; exact ih hrest h
                      · rw [if_neg h9] at h
                        exact ⟨u, humem, by simpa using h8⟩

theorem goUsers_allStores (P : Prog) (needF : Nat → Bool) (tl : Bool)
    (v : Nat) (hneedF : ∀ u, isStoreK (kindOf P u) = true → needF u = false)
    (hall : ∀ u ∈ usersOf P v, storePtrIs (kindOf P u) v = true) :
    ∀ us, (∀ x ∈ us, x ∈ usersOf P v) → goUsers P needF tl v us = false := by
  intro us
  induction us with
  | nil => intro _; rfl
  | cons u rest ih =>
      intro hsub
      have hrest : ∀ x ∈ rest, x ∈ usersOf P v :=
        fun x hx => hsub x (List.mem_cons_of_mem _ hx)
      have humem : u ∈ usersOf P v := hsub u (List.mem_cons_self _ _)
      have hstp : storePtrIs (kindOf P u) v = true := hall u humem
      have hst : isStoreK (kindOf P u) = true := isStoreK_of_storePtrIs hstp
      unfold goUsers
      by_cases h1 : u = v
      · rw [if_pos h1]; exact ih hrest
      · rw [if_neg h1]
        rw [if_neg (c := (!tl && isBranchSwitchCall (kindOf P u)) = true) ?hbsc]
        case hbsc =>
          have : isBranchSwitchCall (kindOf P u) = false := by
            cases hk : kindOf P u <;> simp_all [isBranchSwitchCall, isStoreK]
          simp [this]
        rw [if_neg (c := (!tl && needF u) = true) (by simp [hneedF u hst])]
        rw [if_neg (c := (isFPOf P v = false ∧ isPtrTyOf P v = true) ∧
            scanPtrUsers P needF v (usersOf P v) = .retTrue) ?hscan]
        case hscan =>
          intro hcon
          rw [scanPtr_allStores P needF v (usersOf P v) hall] at hcon
          exact absurd hcon.2 (by simp)
        rw [if_neg (c := isLoadCastPhi (kindOf P u) = true ∧ needF u = false)
          ?hlcp]
        case hlcp =>
          intro hcon
          rw [not_isStoreK_of_isLoadCastPhi hcon.1] at hst
          exact absurd hst (by simp)
        rw [if_neg (c := isFAddSubK (kindOf P u) = true) ?hfas]
        case hfas =>
          cases hk : kindOf P u <;> simp_all [isFAddSubK, isStoreK]
        rw [if_neg (c := gepNoIndexUse (kindOf P u) v = true) ?hgep]
        case hgep =>
          cases hk : kindOf P u <;> simp_all [gepNoIndexUse, isStoreK]
        rw [if_pos hst]
        exact ih hrest

/-- C3: a pointer-typed (non-float) value is classified as needed in the
reverse pass only via some user that is not a store, and a use of the value
solely as the destination pointer of stores never makes it needed: when all
of its users are stores through it, `is_value_needed_in_reverse` returns
false. -/
theorem is_value_needed_in_reverse_spec (P : Prog) (tl : Bool) (v : Nat)
    (_hfp : isFPOf P v = false) (_hptr : isPtrTyOf P v = true)
    (hwf : ∀ inst ∈ P, isStoreK inst.kind = true → inst.users = []) :
    (is_value_needed_in_reverse P tl v = true →
      ∃ u ∈ usersOf P v, isStoreK (kindOf P u) = false) ∧
    ((∀ u ∈ usersOf P v, storePtrIs (kindOf P u) v = true) →
      is_value_needed_in_reverse P tl v = false) := by
  have hneedF : ∀ u, isStoreK (kindOf P u) = true →
      neededAux P tl P.length [v] u = false :=
    fun u hu => needed_store_false P tl hwf P.length [v] u hu
  constructor
  · intro h
    unfold is_value_needed_in_reverse neededAux at h
    rw [if_neg (by simp)] at h
    exact goUsers_true_nonstore P _ tl v hneedF (usersOf P v)
      (fun x hx => hx) h
  · intro hall
    unfold is_value_needed_in_reverse neededAux
    rw [if_neg (by simp)]
    exact goUsers_allStores P _ tl v hneedF hall (usersOf P v)
      (fun x hx => hx)

/-- Witness for C3: a pointer value whose only users are a store through it
and a call; the call user makes it needed, and dropping the call leaves it
not needed. -/
theorem is_value_needed_in_reverse_spec_witness :
    (isFPOf exProg 0 = false) ∧ (isPtrTyOf exProg 0 = true) ∧
    (∀ inst ∈ exProg, isStoreK inst.kind = true → inst.users = []) ∧
    ((is_value_needed_in_reverse (exProg) true 0 = true →
        ∃ u ∈ usersOf (exProg) 0,
          isStoreK (kindOf (exProg) u) = false) ∧
      ((∀ u ∈ usersOf (exProg) 0,
          storePtrIs (kindOf (exProg) u) 0 = true) →
        is_value_needed_in_reverse (exProg) true 0 = false)) :=
  ⟨rfl, rfl, by decide,
    is_value_needed_in_reverse_spec (exProg) true 0 rfl rfl (by decide)⟩

end NeedRev

namespace AugCache

theorem foldl_pres {α : Type _} (g : LogicState → α → LogicState)
    (Pred : LogicState → Prop) (h : ∀ st a, Pred st → Pred (g st a)) :
    ∀ (l : List α) (st : LogicState), Pred st → Pred (List.foldl g st l) := by
  intro l
  induction l with
  | nil => intro st hp; exact hp
  | cons a rest ih => intro st hp; exact ih (g st a) (h st a hp)

theorem foldl_fresh_le (g : LogicState → AugSigKey → LogicState)
    (h : ∀ st a, st.freshFn ≤ (g st a).freshFn) :
    ∀ (l : List AugSigKey) (st : LogicState),
    st.freshFn ≤ (List.foldl g st l).freshFn := by
  intro l
  induction l with
  | nil => intro st; exact le_refl _
  | cons a rest ih => intro st; exact le_trans (h st a) (ih (g st a))

theorem createAug_hit (M : ModuleInfo) (f : Nat) (s : LogicState)
    (k : AugSigKey) (fa : Bool) (r : AugmentedReturn)
    (h : lookupCF s k = some r) :
    CreateAugmentedPrimal M f s k fa = (r, s) := by
  cases f with
  | zero => simp [CreateAugmentedPrimal, h]
  | succ f0 => simp [CreateAugmentedPrimal, h]

theorem createAug_fresh_mono (M : ModuleInfo) :
    ∀ (f : Nat) (s : LogicState) (k : AugSigKey) (fa : Bool),
    s.freshFn ≤ (CreateAugmentedPrimal M f s k fa).2.freshFn := by
  intro f
  induction f with
  | zero =>
      intro s k fa
      cases h : lookupCF s k <;> simp [CreateAugmentedPrimal, h]
  | succ f0 ih =>
      intro s k fa
      unfold CreateAugmentedPrimal
      cases h : lookupCF s k with
      | some r => simp
      | none =>
          cases hmd : (if k.constant_args = [] then M.metadataAug k.fn
              else none) with
          | some pr =>
              obtain ⟨fc, rm⟩ := pr
              cases rm <;> simp
          | none =>
              dsimp only
              refine le_trans ?_ (Nat.le_succ _)
              exact le_trans (Nat.le_succ s.freshFn)
                (foldl_fresh_le
                  (fun st k2 =>
                    let rs := CreateAugmentedPrimal M f0 st k2 false
                    { rs.2 with fnUses := rs.2.fnUses ++ [rs.1.fn] })
                  (fun st a => ih st a false) (M.subcalls k)
                  (reserveAugmented s k))

theorem createAug_preserve (M : ModuleInfo) (k0 : AugSigKey)
    (r0 : AugmentedReturn) :
    ∀ (f : Nat) (s : LogicState) (k : AugSigKey) (fa : Bool),
    lookupCF s k0 = some r0 →
    lookupCF (CreateAugmentedPrimal M f s k fa).2 k0 = some r0 := by
  intro f
  induction f with
  | zero =>
      intro s k fa h0
      cases h : lookupCF s k <;> simpa [CreateAugmentedPrimal, h] using h0
  | succ f0 ih =>
      intro s k fa h0
      unfold CreateAugmentedPrimal
      cases h : lookupCF s k with
      | some r => simpa using h0
      | none =>
          have hne : k0 ≠ k := by
            intro hkk
            rw [hkk] at h0
            rw [show lookupCF s k = StdMap.find s.cachedfunctions k from rfl]
              at h0
            rw [show lookupCF s k = StdMap.find s.cachedfunctions k from rfl]
              at h
            rw [h0] at h
            exact Option.noConfusion h
          cases hmd : (if k.constant_args = [] then M.metadataAug k.fn
              else none) with
          | some pr =>
              obtain ⟨fc, rm⟩ := pr
              cases rm
              · dsimp only
                rw [if_neg (show ¬(false = true) by simp)]
                dsimp only [lookupCF]
                rw [StdMap.find_ioa_other _ k k0 _ hne]
                exact h0
              · dsimp only
                rw [if_pos (show true = true from rfl)]
                dsimp only [lookupCF]
                rw [StdMap.find_ioa_other _ k k0 _ hne]
                exact h0
          | none =>
              dsimp only [lookupCF]
              rw [StdMap.find_updateAt_other _ k k0 _ hne]
              have hres : lookupCF (reserveAugmented s k) k0 = some r0 := by
                dsimp only [lookupCF, reserveAugmented]
                rw [StdMap.find_ioa_other _ k k0 _ hne]
                exact h0
              exact foldl_pres
                (fun st k2 =>
                  let rs := CreateAugmentedPrimal M f0 st k2 false
                  { rs.2 with fnUses := rs.2.fnUses ++ [rs.1.fn] })
                (fun st => lookupCF st k0 = some r0)
                (fun st a hp => ih st a false hp)
                (M.subcalls k) (reserveAugmented s k) hres

theorem createAug_post (M : ModuleInfo) :
    ∀ (f : Nat) (s : LogicState) (k : AugSigKey) (fa : Bool),
    lookupCF s k = none →
    lookupCF (CreateAugmentedPrimal M (f + 1) s k fa).2 k =
      some (CreateAugmentedPrimal M (f + 1) s k fa).1 := by
  intro f s k fa h
  unfold CreateAugmentedPrimal
  rw [h]
  cases hmd : (if k.constant_args = [] then M.metadataAug k.fn else none) with
  | some pr =>
      obtain ⟨fc, rm⟩ := pr
      cases rm
      · dsimp only
        rw [if_neg (show ¬(false = true) by simp)]
        dsimp only [lookupCF]
        rw [StdMap.find_ioa_self _ h]
        rfl
      · dsimp only
        rw [if_pos (show true = true from rfl)]
        dsimp only [lookupCF]
        rw [StdMap.find_ioa_self _ h]
        rfl
  | none =>
      dsimp only [lookupCF]
      have hres : lookupCF (reserveAugmented s k) k =
          some ⟨s.freshFn, none⟩ :=
        StdMap.find_ioa_self _ h
      have hfold := foldl_pres
        (fun st k2 =>
          let rs := CreateAugmentedPrimal M f st k2 false
          { rs.2 with fnUses := rs.2.fnUses ++ [rs.1.fn] })
        (fun st => lookupCF st k = some ⟨s.freshFn, none⟩)
        (fun st a hp => createAug_preserve M k ⟨s.freshFn, none⟩ f st a
          false hp)
        (M.subcalls k) (reserveAugmented s k) hres
      rw [StdMap.find_updateAt_self _ hfold]
      rfl

theorem createAug_generic_fn (M : ModuleInfo) (f : Nat) (s : LogicState)
    (k : AugSigKey) (fa : Bool) (h : lookupCF s k = none)
    (hg : genericPath M k) :
    s.freshFn ≤ (CreateAugmentedPrimal M (f + 1) s k fa).1.fn ∧
    (CreateAugmentedPrimal M (f + 1) s k fa).1.fn <
      (CreateAugmentedPrimal M (f + 1) s k fa).2.freshFn := by
  have hmd : (if k.constant_args = [] then M.metadataAug k.fn else none)
      = none := by
    by_cases hca : k.constant_args = []
    · rw [if_pos hca]
      cases hm : M.metadataAug k.fn with
      | none => rfl
      | some pr => exact absurd ⟨hca, by simp [hm]⟩ hg
    · rw [if_neg hca]
  unfold CreateAugmentedPrimal
  rw [h, hmd]
  have hres : lookupCF (reserveAugmented s k) k = some ⟨s.freshFn, none⟩ :=
    StdMap.find_ioa_self _ h
  have hfold := foldl_pres
    (fun st k2 =>
      let rs := CreateAugmentedPrimal M f st k2 false
      { rs.2 with fnUses := rs.2.fnUses ++ [rs.1.fn] })
    (fun st => lookupCF st k = some ⟨s.freshFn, none⟩)
    (fun st a hp => createAug_preserve M k ⟨s.freshFn, none⟩ f st a false hp)
    (M.subcalls k) (reserveAugmented s k) hres
  dsimp only [lookupCF] at hfold ⊢
  rw [StdMap.find_updateAt_self _ hfold]
  dsimp only [Option.getD_some]
  refine ⟨?_, Nat.lt_succ_self _⟩
  exact le_trans (Nat.le_succ s.freshFn)
    (foldl_fresh_le
      (fun st k2 =>
        let rs := CreateAugmentedPrimal M f st k2 false
        { rs.2 with fnUses := rs.2.fnUses ++ [rs.1.fn] })
      (fun st a => createAug_fresh_mono M f st a false) (M.subcalls k)
      (reserveAugmented s k))

theorem createAug_idem (M : ModuleInfo) (f f2 : Nat) (s : LogicState)
    (k : AugSigKey) (fa fa2 : Bool) (r : AugmentedReturn) (s2 : LogicState)
    (heq : CreateAugmentedPrimal M (f + 1) s k fa = (r, s2)) :
    CreateAugmentedPrimal M f2 s2 k fa2 = (r, s2) := by
  cases h0 : lookupCF s k with
  | some r1 =>
      have hh := createAug_hit M (f + 1) s k fa r1 h0
      rw [hh] at heq
      injection heq with h1 h2
      rw [← h1, ← h2]
      exact createAug_hit M f2 s k fa2 r1 h0
  | none =>
      have hpost := createAug_post M f s k fa h0
      rw [heq] at hpost
      exact createAug_hit M f2 s2 k fa2 r hpost

end AugCache

namespace AugCache

/-- Counterexample for C1 at a concrete input: two distinct signature keys
(differing in the differential-return flag) over a function carrying
`enzyme_augment` metadata whose registered augmented primal has a
mismatched return type both receive the registered function itself
(EnzymeLogic.cpp:1482), so calls with different keys do not always produce
distinct functions. -/
theorem CreateAugmentedPrimal_counterexample :
    cexKey1 ≠ cexKey2 ∧
    (CreateAugmentedPrimal cexModule 1 ⟨[], [], [], 10⟩ cexKey1 false).1.fn
      = 7 ∧
    (CreateAugmentedPrimal cexModule 1
      (CreateAugmentedPrimal cexModule 1 ⟨[], [], [], 10⟩ cexKey1 false).2
      cexKey2 false).1.fn = 7 :=
  ⟨by decide, by decide, by decide⟩

/-- C1 (amended): `CreateAugmentedPrimal` is memoized on the signature key:
a cache hit returns the cached `AugmentedReturn` and leaves the state
unchanged; after any call, a second call with the identical key returns the
very same record without rebuilding; two constructions through the generic
path (no applicable `enzyme_augment` registration) always produce distinct
functions, while keys served from a mismatched-return-type `enzyme_augment`
registration may share the registered function; and during a generic
construction the reservation step installs a placeholder entry with a
placeholder (`none`) tape type which recursive calls to the same key
observe and return unchanged. -/
theorem CreateAugmentedPrimal_spec (M : ModuleInfo) :
    (∀ (f : Nat) (s : LogicState) (k : AugSigKey) (fa : Bool)
        (r : AugmentedReturn), lookupCF s k = some r →
      CreateAugmentedPrimal M f s k fa = (r, s)) ∧
    (∀ (f f2 : Nat) (s : LogicState) (k : AugSigKey) (fa fa2 : Bool)
        (r : AugmentedReturn) (s2 : LogicState),
      CreateAugmentedPrimal M (f + 1) s k fa = (r, s2) →
      CreateAugmentedPrimal M f2 s2 k fa2 = (r, s2)) ∧
    (∀ (f1 f2 : Nat) (s0 : LogicState) (k1 k2 : AugSigKey) (fa1 fa2 : Bool),
      lookupCF s0 k1 = none → genericPath M k1 →
      lookupCF (CreateAugmentedPrimal M (f1 + 1) s0 k1 fa1).2 k2 = none →
      genericPath M k2 →
      (CreateAugmentedPrimal M (f1 + 1) s0 k1 fa1).1.fn ≠
        (CreateAugmentedPrimal M (f2 + 1)
          (CreateAugmentedPrimal M (f1 + 1) s0 k1 fa1).2 k2 fa2).1.fn) ∧
    (∀ (s : LogicState) (k : AugSigKey), lookupCF s k = none →
      lookupCF (reserveAugmented s k) k = some ⟨s.freshFn, none⟩ ∧
      ∀ (f : Nat) (fa : Bool),
        CreateAugmentedPrimal M f (reserveAugmented s k) k fa =
          (⟨s.freshFn, none⟩, reserveAugmented s k)) := by
  refine ⟨?_, ?_, ?_, ?_⟩
  · intro f s k fa r h
    exact createAug_hit M f s k fa r h
  · intro f f2 s k fa fa2 r s2 heq
    exact createAug_idem M f f2 s k fa fa2 r s2 heq
  · intro f1 f2 s0 k1 k2 fa1 fa2 h1 hg1 h2 hg2
    have hb1 := createAug_generic_fn M f1 s0 k1 fa1 h1 hg1
    have hb2 := createAug_generic_fn M f2
      (CreateAugmentedPrimal M (f1 + 1) s0 k1 fa1).2 k2 fa2 h2 hg2
    have hmono : (CreateAugmentedPrimal M (f1 + 1) s0 k1 fa1).1.fn <
        (CreateAugmentedPrimal M (f1 + 1) s0 k1 fa1).2.freshFn := hb1.2
    omega
  · intro s k h
    have hres : lookupCF (reserveAugmented s k) k = some ⟨s.freshFn, none⟩ :=
      StdMap.find_ioa_self _ h
    exact ⟨hres, fun f fa =>
      createAug_hit M f (reserveAugmented s k) k fa ⟨s.freshFn, none⟩ hres⟩

/-- Witness for C1 (amended): the four conjuncts applied to concrete
modules, states and keys. -/
theorem CreateAugmentedPrimal_spec_witness :
    (CreateAugmentedPrimal exModule 2 exStateHit exKey false =
      (exEntry, exStateHit)) ∧
    (CreateAugmentedPrimal exModule 3
        (CreateAugmentedPrimal exModule 1 exState0 exKey false).2 exKey true =
      ((CreateAugmentedPrimal exModule 1 exState0 exKey false).1,
       (CreateAugmentedPrimal exModule 1 exState0 exKey false).2)) ∧
    ((CreateAugmentedPrimal exModule 1 exState0 exKey false).1.fn ≠
      (CreateAugmentedPrimal exModule 1
        (CreateAugmentedPrimal exModule 1 exState0 exKey false).2 exKey2
        false).1.fn) ∧
    (lookupCF (reserveAugmented exState0 exKey) exKey =
      some ⟨exState0.freshFn, none⟩ ∧
     CreateAugmentedPrimal exModule 4 (reserveAugmented exState0 exKey) exKey
        false = (⟨exState0.freshFn, none⟩, reserveAugmented exState0 exKey)) :=
  ⟨(CreateAugmentedPrimal_spec exModule).1 2 exStateHit exKey false exEntry
      (by decide),
   (CreateAugmentedPrimal_spec exModule).2.1 0 3 exState0 exKey false true
      (CreateAugmentedPrimal exModule 1 exState0 exKey false).1
      (CreateAugmentedPrimal exModule 1 exState0 exKey false).2 rfl,
   (CreateAugmentedPrimal_spec exModule).2.2.1 0 0 exState0 exKey exKey2
      false false (by decide) (by unfold genericPath; decide) (by decide)
      (by unfold genericPath; decide),
   ⟨((CreateAugmentedPrimal_spec exModule).2.2.2 exState0 exKey
      (by decide)).1,
    ((CreateAugmentedPrimal_spec exModule).2.2.2 exState0 exKey
      (by decide)).2 4 false⟩⟩

end AugCache
